import Mathlib

/-!
Verification development for the site-mirroring crawler in crawl(1).py.

Modelling conventions:
- Python strings are modelled as List Char.
- The urllib.parse functions (urlparse, urljoin, urlunparse) are modelled
  after the CPython implementation.  urlsplit raises ValueError on a netloc
  with an unbalanced square bracket; that fallibility is modelled by Option
  (none = the raised exception).  The NFKC check for non-ASCII netlocs is not
  modelled; every concrete input in this file is ASCII, where CPython's only
  error condition is the bracket check.  CPython's removal of tab, CR and LF
  characters before parsing is modelled.
- BeautifulSoup documents are modelled at the parse-tree level (the spec's
  parse/serialize capability): markup is a list of items, where an item is an
  anchor element carrying its href attribute value, a stylesheet link element,
  a style element, a base element, or other (non-anchor) content.
- The crawl loop of main() is a labelled transition relation over the
  (frontier, visited) state, with the links discovered on each page abstracted
  by a function from URL to a finite set (the rendering + extraction
  capability); extract_internal_links is modelled separately and its
  characterization lemma ties the abstraction to the concrete extractor.
-/

namespace Crawler

/-- Characters of a string literal: the model of a Python str. -/
def lc (s : String) : List Char := s.data

/-- Python s.startswith(p): the first list starts with the second. -/
def listStartsWith : List Char → List Char → Bool
  | _, [] => true
  | [], _ :: _ => false
  | c :: s, d :: p => c == d && listStartsWith s p

/-- Fuel-indexed worker for Python str.replace: replaces non-overlapping
occurrences of old, scanning left to right.  Fuel at least the length of the
input makes the fuel-exhausted branch unreachable. -/
def pyReplaceF (old new : List Char) : Nat → List Char → List Char
  | _, [] => []
  | 0, s => s
  | fuel + 1, c :: s =>
    if listStartsWith (c :: s) old then
      new ++ pyReplaceF old new fuel ((c :: s).drop old.length)
    else
      c :: pyReplaceF old new fuel s

/-- Python s.replace(old, new) for a non-empty pattern (the crawler and the
CPython URL code only replace non-empty patterns; the empty pattern is
modelled as the identity). -/
def pyReplace (old new s : List Char) : List Char :=
  if old = [] then s else pyReplaceF old new s.length s

/-- Python s.strip(c-as-one-char-string): remove the character from both ends. -/
def pyStrip (c : Char) (s : List Char) : List Char :=
  ((s.dropWhile (fun d => d == c)).reverse.dropWhile (fun d => d == c)).reverse

/-- Python s.split(sep) for a single-character separator: keeps empty pieces,
and the split of the empty string is one empty piece. -/
def pySplit (sep : Char) : List Char → List (List Char)
  | [] => [[]]
  | c :: s =>
    if c = sep then [] :: pySplit sep s
    else
      match pySplit sep s with
      | [] => [[c]]
      | t :: ts => (c :: t) :: ts

/-- Python sep.join(pieces) for a single-character separator. -/
def pyJoin (sep : Char) : List (List Char) → List Char
  | [] => []
  | [s] => s
  | s :: rest => s ++ sep :: pyJoin sep rest

/-- The prefix of s before the first occurrence of c; the whole of s when c
does not occur.  This is Python s.split(c)[0]. -/
def takeUntil (c : Char) (s : List Char) : List Char :=
  s.takeWhile (fun d => !(d == c))

/-- CPython urlsplit removes every tab, CR and LF character from the URL
before parsing (_UNSAFE_URL_BYTES_TO_REMOVE). -/
def sanitize (s : List Char) : List Char :=
  pyReplace [ '\n' ] [] (pyReplace [ '\r' ] [] (pyReplace [ '\t' ] [] s))

/-- The characters CPython allows after the first character of a URL scheme. -/
def schemeChar (c : Char) : Bool :=
  c.isAlpha || c.isDigit || c == '+' || c == '-' || c == '.'

/-- CPython urlsplit scheme detection: a colon at a positive index, an ASCII
letter first, and only scheme characters up to the colon; the matched scheme
is lowercased, otherwise the default scheme is kept and the URL is unchanged. -/
def splitScheme (defScheme url : List Char) : List Char × List Char :=
  match List.findIdx? (fun c => c == ':') url with
  | some i =>
    if 0 < i ∧ (url.headD ' ').isAlpha = true ∧ ((url.take i).drop 1).all schemeChar = true then
      ((url.take i).map Char.toLower, url.drop (i + 1))
    else (defScheme, url)
  | none => (defScheme, url)

/-- The result of CPython urlsplit. -/
structure SplitResult where
  scheme : List Char
  netloc : List Char
  path : List Char
  query : List Char
  fragment : List Char
deriving DecidableEq

/-- CPython urlsplit order for the remainder after scheme and netloc: the
fragment is split off at the first hash, then the query at the first
question mark. -/
def splitQF (scheme netloc rest : List Char) : SplitResult :=
  let beforeFrag := if '#' ∈ rest then takeUntil '#' rest else rest
  let fragment := if '#' ∈ rest then (rest.dropWhile (fun c => !(c == '#'))).drop 1 else []
  let path := if '?' ∈ beforeFrag then takeUntil '?' beforeFrag else beforeFrag
  let query := if '?' ∈ beforeFrag then (beforeFrag.dropWhile (fun c => !(c == '?'))).drop 1 else []
  ⟨scheme, netloc, path, query, fragment⟩

/-- CPython urlsplit.  none models the ValueError("Invalid IPv6 URL") raised
when the netloc contains an unbalanced square bracket. -/
def urlsplit (defScheme url0 : List Char) : Option SplitResult :=
  let url := sanitize url0
  let sp := splitScheme defScheme url
  let scheme := sp.1
  let rest := sp.2
  if listStartsWith rest (lc "//") then
    let netloc := (rest.drop 2).takeWhile (fun c => !(c == '/' || c == '?' || c == '#'))
    let rest2 := (rest.drop 2).dropWhile (fun c => !(c == '/' || c == '?' || c == '#'))
    if ('[' ∈ netloc ∧ ']' ∉ netloc) ∨ (']' ∈ netloc ∧ '[' ∉ netloc) then none
    else some (splitQF scheme netloc rest2)
  else some (splitQF scheme [] rest)

/-- The result of CPython urlparse. -/
structure ParseResult where
  scheme : List Char
  netloc : List Char
  path : List Char
  params : List Char
  query : List Char
  fragment : List Char
deriving DecidableEq

/-- The schemes for which CPython urlparse splits params off the path. -/
def uses_params : List (List Char) :=
  [[], lc "ftp", lc "hdl", lc "prospero", lc "http", lc "imap",
   lc "https", lc "shttp", lc "rtsp", lc "rtspu", lc "sip", lc "sips",
   lc "mms", lc "sftp", lc "tel"]

/-- Index of the last slash in s, when there is one. -/
def lastSlashIdx (s : List Char) : Option Nat :=
  match List.findIdx? (fun c => c == '/') s.reverse with
  | some i => some (s.length - 1 - i)
  | none => none

/-- CPython _splitparams: split the params off at the first semicolon of the
last path segment. -/
def splitparams (url : List Char) : List Char × List Char :=
  let i? :=
    if '/' ∈ url then
      match lastSlashIdx url with
      | some j => (List.findIdx? (fun c => c == ';') (url.drop j)).map (fun k => k + j)
      | none => List.findIdx? (fun c => c == ';') url
    else List.findIdx? (fun c => c == ';') url
  match i? with
  | none => (url, [])
  | some i => (url.take i, url.drop (i + 1))

/-- CPython urlparse: urlsplit, then split params off the path for the schemes
that use them. -/
def urlparse (defScheme url : List Char) : Option ParseResult :=
  match urlsplit defScheme url with
  | none => none
  | some r =>
    if r.scheme ∈ uses_params ∧ ';' ∈ r.path then
      let pp := splitparams r.path
      some ⟨r.scheme, r.netloc, pp.1, pp.2, r.query, r.fragment⟩
    else
      some ⟨r.scheme, r.netloc, r.path, [], r.query, r.fragment⟩

/-- CPython urlunsplit. -/
def urlunsplit (scheme netloc path query fragment : List Char) : List Char :=
  let u1 :=
    if netloc ≠ [] ∨ listStartsWith path (lc "//") = true then
      let p := if path ≠ [] ∧ ¬ listStartsWith path (lc "/") = true then '/' :: path else path
      lc "//" ++ netloc ++ p
    else path
  let u2 := if scheme ≠ [] then scheme ++ ':' :: u1 else u1
  let u3 := if query ≠ [] then u2 ++ '?' :: query else u2
  if fragment ≠ [] then u3 ++ '#' :: fragment else u3

/-- CPython urlunparse. -/
def urlunparse (r : ParseResult) : List Char :=
  let p := if r.params ≠ [] then r.path ++ ';' :: r.params else r.path
  urlunsplit r.scheme r.netloc p r.query r.fragment

/-- The schemes CPython urljoin treats as allowing relative references. -/
def uses_relative : List (List Char) :=
  [[], lc "ftp", lc "http", lc "gopher", lc "nntp", lc "imap", lc "wais",
   lc "file", lc "https", lc "shttp", lc "mms", lc "prospero", lc "rtsp",
   lc "rtspu", lc "sftp", lc "svn", lc "svn+ssh", lc "ws", lc "wss"]

/-- The schemes CPython urljoin treats as carrying a netloc. -/
def uses_netloc : List (List Char) :=
  [[], lc "ftp", lc "http", lc "gopher", lc "nntp", lc "telnet", lc "imap",
   lc "wais", lc "file", lc "mms", lc "https", lc "shttp", lc "snews",
   lc "prospero", lc "rtsp", lc "rtspu", lc "rsync", lc "svn",
   lc "svn+ssh", lc "sftp", lc "nfs", lc "git", lc "git+ssh", lc "ws",
   lc "wss", lc "itms-services"]

/-- CPython urljoin segment slice assignment: segments[1:-1] loses its empty
pieces, the first and last pieces are kept. -/
def filterMiddle : List (List Char) → List (List Char)
  | [] => []
  | [a] => [a]
  | a :: b :: rest =>
    a :: (((b :: rest).dropLast.filter (fun seg => seg ≠ [])) ++ [(b :: rest).getLastD []])

/-- CPython urljoin dot-segment resolution loop: double dots pop the
accumulator (harmlessly on empty), single dots are dropped. -/
def resolveSegs : List (List Char) → List (List Char) → List (List Char)
  | acc, [] => acc
  | acc, seg :: rest =>
    if seg = lc ".." then resolveSegs acc.dropLast rest
    else if seg = lc "." then resolveSegs acc rest
    else resolveSegs (acc ++ [seg]) rest

/-- CPython urljoin.  none models a ValueError raised while parsing either
argument. -/
def urljoin (base url : List Char) : Option (List Char) :=
  if base = [] then some url
  else if url = [] then some base
  else match urlparse [] base with
  | none => none
  | some b =>
    match urlparse b.scheme url with
    | none => none
    | some u =>
      if u.scheme ≠ b.scheme ∨ u.scheme ∉ uses_relative then some url
      else if u.scheme ∈ uses_netloc ∧ u.netloc ≠ [] then
        some (urlunparse u)
      else
        let netloc := if u.scheme ∈ uses_netloc then b.netloc else u.netloc
        if u.path = [] ∧ u.params = [] then
          let q := if u.query = [] then b.query else u.query
          some (urlunparse ⟨u.scheme, netloc, b.path, b.params, q, u.fragment⟩)
        else
          let baseParts := pySplit '/' b.path
          let baseParts := if baseParts.getLastD [] ≠ [] then baseParts.dropLast else baseParts
          let segments :=
            if listStartsWith u.path (lc "/") then pySplit '/' u.path
            else filterMiddle (baseParts ++ pySplit '/' u.path)
          let resolved := resolveSegs [] segments
          let resolved :=
            if segments.getLastD [] = lc "." ∨ segments.getLastD [] = lc ".." then
              resolved ++ [[]]
            else resolved
          let newPath := pyJoin '/' resolved
          let newPath := if newPath = [] then [ '/' ] else newPath
          some (urlunparse ⟨u.scheme, netloc, newPath, u.params, u.query, u.fragment⟩)

/-- The Site Root: BASE_URL in crawl(1).py. -/
def BASE_URL : List Char := lc "https://sites.google.com/view/spc-student-it-club"

/-- START_PAGE = BASE_URL + "/home". -/
def START_PAGE : List Char := BASE_URL ++ lc "/home"

/-- OUTPUT_DIR = "spc-site". -/
def OUTPUT_DIR : List Char := lc "spc-site"

/-- The distinguishing path segment removed by url_to_filename. -/
def SEGMENT : List Char := lc "/view/spc-student-it-club"

/-- is_internal from crawl(1).py: a textual prefix test against BASE_URL. -/
def is_internal (url : List Char) : Bool := listStartsWith url BASE_URL

/-- url_to_filename from crawl(1).py: take the parsed path, remove the
distinguishing segment, strip slashes at both ends, turn the remaining
slashes into underscores, default to home, append .html.  none models the
ValueError urlparse raises on an unparsable URL. -/
def url_to_filename (url : List Char) : Option (List Char) :=
  (urlparse [] url).map fun r =>
    let path := pyReplace SEGMENT [] r.path
    let path := pyReplace [ '/' ] [ '_' ] (pyStrip '/' path)
    let path := if path = [] then lc "home" else path
    path ++ lc ".html"

/-- Modelled from the spec (section 4.1): strip the site-root distinguishing
path segment from the path, strip leading and trailing slashes, replace the
remaining slashes with underscores, substitute the reserved token home when
the residual is empty, append the .html suffix. -/
def localFilenameOfPath (p : List Char) : List Char :=
  let residual := pyReplace SEGMENT [] p
  let residual := pyStrip '/' residual
  let flat := pyReplace [ '/' ] [ '_' ] residual
  (if flat = [] then lc "home" else flat) ++ lc ".html"

/-- An item of parsed markup, at the granularity of the spec's parse/serialize
capability: an anchor element with an href attribute, the elements the
materializer manipulates, or other (non-anchor) content. -/
inductive Item where
  | text (s : List Char)
  | anchor (href : List Char)
  | stylesheetLink
  | styleTag (css : List Char)
  | baseTag (href : List Char)
deriving DecidableEq

/-- Parsed markup: a list of items in document order. -/
abbrev Markup := List Item

/-- The normalization both extract_internal_links and rewrite_internal_links
apply to an href: urljoin against the current URL, then split("?")[0] and
split("#")[0]. -/
def stripQueryFrag (s : List Char) : List Char :=
  takeUntil '#' (takeUntil '?' s)

/-- urljoin followed by query and fragment stripping; none models a raised
ValueError. -/
def resolveNormalize (cu href : List Char) : Option (List Char) :=
  (urljoin cu href).map stripQueryFrag

/-- extract_internal_links from crawl(1).py: walk the anchors in order,
resolve and normalize each href, and collect into a set those that are
internal and not in the visited set.  The visited set is a read-only
parameter (the Python code reads the module-level visited set and never
mutates it here).  none models a ValueError escaping from urljoin. -/
def extract_internal_links (cu : List Char) (v : Finset (List Char)) :
    Markup → Option (Finset (List Char))
  | [] => some ∅
  | Item.anchor href :: rest =>
    (resolveNormalize cu href).bind fun full =>
      (extract_internal_links cu v rest).map fun links =>
        if is_internal full = true ∧ full ∉ v then insert full links else links
  | _ :: rest => extract_internal_links cu v rest

/-- rewrite_internal_links from crawl(1).py: each anchor's href is resolved
and normalized; an internal target replaces the attribute value with
url_to_filename of the normalized target, an external target leaves the
attribute untouched; non-anchor items pass through unchanged.  none models a
ValueError escaping from urljoin or urlparse. -/
def rewrite_internal_links (cu : List Char) : Markup → Option Markup
  | [] => some []
  | Item.anchor href :: rest =>
    (resolveNormalize cu href).bind fun full =>
      (if is_internal full = true then
        (url_to_filename full).map fun fn => Item.anchor fn
      else some (Item.anchor href)).bind fun newItem =>
        (rewrite_internal_links cu rest).map fun out => newItem :: out
  | i :: rest => (rewrite_internal_links cu rest).map fun out => i :: out

/-- A parsed document: the contents of the head element when one exists, and
the rest of the document. -/
structure Doc where
  head : Option Markup
  body : Markup
deriving DecidableEq

/-- Recognizer for stylesheet link elements. -/
def isStylesheetLink : Item → Bool
  | Item.stylesheetLink => true
  | _ => false

/-- The soup.find_all("link", rel="stylesheet") removal pass. -/
def removeStylesheetLinks (m : Markup) : Markup :=
  m.filter (fun i => !(isStylesheetLink i))

/-- The href of the base element crawl_page inserts. -/
def GOOGLE_ORIGIN : List Char := lc "https://sites.google.com"

/-- The document transformations of crawl_page, in source order: remove every
stylesheet link, then append a style element with the captured CSS to the
head when the document has one, then insert a base element at the start of
the head when the document has one. -/
def materialize (d : Doc) (styles : List Char) : Doc :=
  let d1 : Doc := ⟨d.head.map removeStylesheetLinks, removeStylesheetLinks d.body⟩
  let d2 : Doc :=
    match d1.head with
    | some h => ⟨some (h ++ [Item.styleTag styles]), d1.body⟩
    | none => d1
  match d2.head with
  | some h => ⟨some (Item.baseTag GOOGLE_ORIGIN :: h), d2.body⟩
  | none => d2

/-- Serialization of a document back to markup (str(soup)). -/
def docToMarkup (d : Doc) : Markup := d.head.getD [] ++ d.body

/-- The externally visible actions of crawl_page, in order. -/
inductive Effect where
  | goto (url : List Char) (timeoutMs : Nat)
  | waitMs (ms : Nat)
  | captureStyles
  | getContent
  | closeContext
  | writeFile (path : List Char) (content : Markup)
deriving DecidableEq

/-- What the rendering capability yields for one URL: whether page.goto
succeeded (false = timeout or navigation error, caught by the except),
the document obtainable from page.content() afterward, and the captured
style text. -/
structure FetchResult where
  ok : Bool
  doc : Doc
  styles : List Char

/-- os.path.join, modelled with a slash separator. -/
def pathJoin (a b : List Char) : List Char := a ++ '/' :: b

/-- crawl_page from crawl(1).py as a function from the fetch outcome to the
effect trace and the discovered links: compute the filename, fetch with a
30000 ms timeout (an extra 5000 ms wait replaces the failed fetch's tail, a
2000 ms wait always follows), capture styles and content, extract the new
internal links from the raw markup, materialize, rewrite the internal links,
and write the file.  none models an uncaught exception (a ValueError from
URL parsing); the except around page.goto makes a fetch failure itself
never produce none. -/
def crawl_page (visited : Finset (List Char)) (url : List Char) (f : FetchResult) :
    Option (List Effect × Finset (List Char)) :=
  match url_to_filename url with
  | none => none
  | some filename =>
    match extract_internal_links url visited (docToMarkup f.doc) with
    | none => none
    | some newLinks =>
      match rewrite_internal_links url (docToMarkup (materialize f.doc f.styles)) with
      | none => none
      | some finalHtml =>
        some (Effect.goto url 30000 ::
                (if f.ok then [] else [Effect.waitMs 5000]) ++
                [Effect.waitMs 2000, Effect.captureStyles, Effect.getContent,
                 Effect.closeContext,
                 Effect.writeFile (pathJoin OUTPUT_DIR filename) finalHtml],
              newLinks)

/-- The crawl loop state of main(): the queue (frontier) and visited sets. -/
structure CrawlState where
  queue : Finset (List Char)
  visited : Finset (List Char)
deriving DecidableEq

/-- What one loop iteration did: skipped an already-visited popped URL, or
processed a fresh one. -/
inductive StepLabel where
  | skip (u : List Char)
  | process (u : List Char)
deriving DecidableEq

/-- The state at the first loop-condition evaluation: queue = {START_PAGE},
visited = set(). -/
def initState : CrawlState := ⟨{START_PAGE}, ∅⟩

/-- One iteration of the while loop of main(), parametrized by the function
pl giving the internal links discovered on each page (the rendering plus
extraction capability; extract_internal_links additionally drops links
already visited, which is the filter below).  queue.pop() is an arbitrary
choice, hence a relation.  A popped URL already in visited is skipped;
otherwise it is added to visited and processed, and every discovered link
not in visited joins the queue. -/
inductive Step (pl : List Char → Finset (List Char)) :
    CrawlState → StepLabel → CrawlState → Prop where
  | skip (s : CrawlState) (u : List Char) (hq : u ∈ s.queue) (hv : u ∈ s.visited) :
      Step pl s (StepLabel.skip u) ⟨s.queue.erase u, s.visited⟩
  | process (s : CrawlState) (u : List Char) (hq : u ∈ s.queue) (hv : u ∉ s.visited) :
      Step pl s (StepLabel.process u)
        ⟨s.queue.erase u ∪ (pl u).filter (fun l => l ∉ insert u s.visited),
         insert u s.visited⟩

/-- A finite execution of the crawl loop, recording the label of every
iteration. -/
inductive Run (pl : List Char → Finset (List Char)) :
    CrawlState → List StepLabel → CrawlState → Prop where
  | nil (s : CrawlState) : Run pl s [] s
  | cons {s1 s2 s3 : CrawlState} {l : StepLabel} {t : List StepLabel}
      (hstep : Step pl s1 l s2) (hrun : Run pl s2 t s3) : Run pl s1 (l :: t) s3

/-- An anchor item test. -/
def isAnchor : Item → Bool
  | Item.anchor _ => true
  | _ => false

/-- The non-anchor content of a markup, in order. -/
def nonAnchorContent (m : Markup) : Markup :=
  m.filter (fun i => !(isAnchor i))

/-- How rewrite_internal_links relates an input item to the corresponding
output item: non-anchor items are unchanged; an anchor resolves and
normalizes to some target, and is rewritten to the local filename of an
internal target (never equal to the absolute form) or left untouched for an
external one. -/
def RewriteRel (cu : List Char) (i i' : Item) : Prop :=
  match i with
  | Item.anchor href =>
    ∃ full href', i' = Item.anchor href' ∧ resolveNormalize cu href = some full ∧
      ((is_internal full = true ∧ url_to_filename full = some href' ∧ href' ≠ full) ∨
       (is_internal full = false ∧ href' = href))
  | _ => i' = i

/-- The invariant of the crawl loop relative to a closed page set P: both
sets stay inside P and the frontier and visited sets are disjoint. -/
def LoopInv (P : Finset (List Char)) (s : CrawlState) : Prop :=
  s.queue ⊆ P ∧ s.visited ⊆ P ∧ Disjoint s.queue s.visited

theorem pyReplaceF_no_slash (fuel : Nat) :
    ∀ s : List Char, s.length ≤ fuel → '/' ∉ pyReplaceF [ '/' ] [ '_' ] fuel s := by
  induction fuel with
  | zero =>
    intro s hs
    have hz : s = [] := List.eq_nil_of_length_eq_zero (Nat.le_zero.mp hs)
    subst hz
    simp [pyReplaceF]
  | succ n ih =>
    intro s hs
    cases s with
    | nil => simp [pyReplaceF]
    | cons c s2 =>
      simp only [pyReplaceF]
      by_cases hc : listStartsWith (c :: s2) [ '/' ] = true
      · rw [if_pos hc]
        intro hmem
        rcases List.mem_append.mp hmem with h1 | h2
        · simp at h1
        · have hlen : s2.length ≤ n := by
            simp only [List.length_cons] at hs
            omega
          have hdrop : (c :: s2).drop [ '/' ].length = s2 := by simp
          rw [hdrop] at h2
          exact ih s2 hlen h2
      · rw [if_neg hc]
        intro hmem
        rcases List.mem_cons.mp hmem with h1 | h2
        · apply hc
          rw [← h1]
          simp [listStartsWith]
        · have hlen : s2.length ≤ n := by
            simp only [List.length_cons] at hs
            omega
          exact ih s2 hlen h2

theorem pyReplace_no_slash (s : List Char) : '/' ∉ pyReplace [ '/' ] [ '_' ] s := by
  rw [pyReplace, if_neg (by simp)]
  exact pyReplaceF_no_slash s.length s le_rfl

theorem localFilenameOfPath_no_slash (p : List Char) : '/' ∉ localFilenameOfPath p := by
  intro hmem
  simp only [localFilenameOfPath, List.mem_append] at hmem
  rcases hmem with h1 | h2
  · by_cases hflat : pyReplace [ '/' ] [ '_' ] (pyStrip '/' (pyReplace SEGMENT [] p)) = []
    · rw [if_pos hflat] at h1
      exact absurd h1 (by decide)
    · rw [if_neg hflat] at h1
      exact pyReplace_no_slash _ h1
  · exact absurd h2 (by decide)

theorem url_to_filename_eq_pipeline (url : List Char) :
    url_to_filename url = (urlparse [] url).map (fun r => localFilenameOfPath r.path) := rfl

theorem url_to_filename_no_slash {u fn : List Char} (h : url_to_filename u = some fn) :
    '/' ∉ fn := by
  rw [url_to_filename_eq_pipeline, Option.map_eq_some'] at h
  obtain ⟨r, hr, hfn⟩ := h
  rw [← hfn]
  exact localFilenameOfPath_no_slash r.path

theorem listStartsWith_exists : ∀ {p s : List Char}, listStartsWith s p = true → ∃ t, s = p ++ t := by
  intro p
  induction p with
  | nil => intro s _; exact ⟨s, rfl⟩
  | cons d p2 ih =>
    intro s h
    cases s with
    | nil => simp [listStartsWith] at h
    | cons c s2 =>
      simp only [listStartsWith, Bool.and_eq_true, beq_iff_eq] at h
      obtain ⟨rfl, h2⟩ := h
      obtain ⟨t, rfl⟩ := ih h2
      exact ⟨t, rfl⟩

theorem is_internal_has_slash {u : List Char} (h : is_internal u = true) : '/' ∈ u := by
  obtain ⟨t, rfl⟩ := listStartsWith_exists h
  exact List.mem_append.mpr (Or.inl (by decide))

theorem url_to_filename_ne {u fn : List Char} (hi : is_internal u = true)
    (h : url_to_filename u = some fn) : fn ≠ u := by
  intro heq
  exact url_to_filename_no_slash h (heq ▸ is_internal_has_slash hi)

theorem rewrite_forall2 (cu : List Char) :
    ∀ (m out : Markup), rewrite_internal_links cu m = some out →
      List.Forall₂ (RewriteRel cu) m out := by
  intro m
  induction m with
  | nil =>
    intro out h
    simp only [rewrite_internal_links, Option.some.injEq] at h
    subst h
    exact List.Forall₂.nil
  | cons i rest ih =>
    intro out h
    cases i with
    | anchor href =>
      simp only [rewrite_internal_links, Option.bind_eq_some, Option.map_eq_some'] at h
      obtain ⟨full, hfull, newItem, hni, outRest, hrest, hout⟩ := h
      subst hout
      refine List.Forall₂.cons ?_ (ih outRest hrest)
      by_cases hint : is_internal full = true
      · rw [if_pos hint, Option.map_eq_some'] at hni
        obtain ⟨fn, hfn, hitem⟩ := hni
        subst hitem
        exact ⟨full, fn, rfl, hfull, Or.inl ⟨hint, hfn, url_to_filename_ne hint hfn⟩⟩
      · rw [if_neg hint, Option.some.injEq] at hni
        subst hni
        refine ⟨full, href, rfl, hfull, Or.inr ⟨?_, rfl⟩⟩
        simpa using hint
    | text s =>
      simp only [rewrite_internal_links, Option.map_eq_some'] at h
      obtain ⟨outRest, hrest, hout⟩ := h
      subst hout
      exact List.Forall₂.cons rfl (ih outRest hrest)
    | stylesheetLink =>
      simp only [rewrite_internal_links, Option.map_eq_some'] at h
      obtain ⟨outRest, hrest, hout⟩ := h
      subst hout
      exact List.Forall₂.cons rfl (ih outRest hrest)
    | styleTag s =>
      simp only [rewrite_internal_links, Option.map_eq_some'] at h
      obtain ⟨outRest, hrest, hout⟩ := h
      subst hout
      exact List.Forall₂.cons rfl (ih outRest hrest)
    | baseTag s =>
      simp only [rewrite_internal_links, Option.map_eq_some'] at h
      obtain ⟨outRest, hrest, hout⟩ := h
      subst hout
      exact List.Forall₂.cons rfl (ih outRest hrest)

/-- C6: for every markup, fetch URL and visited set, a successful
extract_internal_links returns exactly the set of anchor targets that,
resolved against the fetch URL and stripped of query string and fragment,
are internal and not in the visited set at extraction time; the visited set
is a read-only parameter, so it is not mutated. -/
theorem extract_internal_links_characterization (cu : List Char)
    (v : Finset (List Char)) (m : Markup) (S : Finset (List Char))
    (h : extract_internal_links cu v m = some S) (x : List Char) :
    x ∈ S ↔ ((∃ href, Item.anchor href ∈ m ∧ resolveNormalize cu href = some x)
             ∧ is_internal x = true ∧ x ∉ v) := by
  revert h
  induction m generalizing S with
  | nil =>
    intro h
    simp only [extract_internal_links, Option.some.injEq] at h
    subst h
    simp
  | cons i rest ih =>
    intro h
    cases i with
    | anchor href =>
      simp only [extract_internal_links, Option.bind_eq_some, Option.map_eq_some'] at h
      obtain ⟨full, hfull, links, hlinks, hS⟩ := h
      subst hS
      have hrest := ih links hlinks
      by_cases hcond : is_internal full = true ∧ full ∉ v
      · rw [if_pos hcond]
        rw [Finset.mem_insert, hrest]
        constructor
        · rintro (rfl | ⟨⟨href2, hmem, hres⟩, hint, hnv⟩)
          · exact ⟨⟨href, List.mem_cons_self _ _, hfull⟩, hcond.1, hcond.2⟩
          · exact ⟨⟨href2, List.mem_cons_of_mem _ hmem, hres⟩, hint, hnv⟩
        · rintro ⟨⟨href2, hmem, hres⟩, hint, hnv⟩
          rcases List.mem_cons.mp hmem with heq | hmem2
          · have hh : href2 = href := by simpa using heq
            subst hh
            rw [hfull, Option.some.injEq] at hres
            exact Or.inl hres.symm
          · exact Or.inr ⟨⟨href2, hmem2, hres⟩, hint, hnv⟩
      · rw [if_neg hcond]
        rw [hrest]
        constructor
        · rintro ⟨⟨href2, hmem, hres⟩, hint, hnv⟩
          exact ⟨⟨href2, List.mem_cons_of_mem _ hmem, hres⟩, hint, hnv⟩
        · rintro ⟨⟨href2, hmem, hres⟩, hint, hnv⟩
          rcases List.mem_cons.mp hmem with heq | hmem2
          · have hh : href2 = href := by simpa using heq
            subst hh
            rw [hfull, Option.some.injEq] at hres
            subst hres
            exact absurd ⟨hint, hnv⟩ hcond
          · exact ⟨⟨href2, hmem2, hres⟩, hint, hnv⟩
    | text s =>
      simp only [extract_internal_links] at h
      rw [ih S h]
      simp only [List.mem_cons]
      constructor
      · rintro ⟨⟨href2, hmem, hres⟩, hint, hnv⟩
        exact ⟨⟨href2, Or.inr hmem, hres⟩, hint, hnv⟩
      · rintro ⟨⟨href2, heq | hmem, hres⟩, hint, hnv⟩
        · exact absurd heq (by simp)
        · exact ⟨⟨href2, hmem, hres⟩, hint, hnv⟩
    | stylesheetLink =>
      simp only [extract_internal_links] at h
      rw [ih S h]
      simp only [List.mem_cons]
      constructor
      · rintro ⟨⟨href2, hmem, hres⟩, hint, hnv⟩
        exact ⟨⟨href2, Or.inr hmem, hres⟩, hint, hnv⟩
      · rintro ⟨⟨href2, heq | hmem, hres⟩, hint, hnv⟩
        · exact absurd heq (by simp)
        · exact ⟨⟨href2, hmem, hres⟩, hint, hnv⟩
    | styleTag s =>
      simp only [extract_internal_links] at h
      rw [ih S h]
      simp only [List.mem_cons]
      constructor
      · rintro ⟨⟨href2, hmem, hres⟩, hint, hnv⟩
        exact ⟨⟨href2, Or.inr hmem, hres⟩, hint, hnv⟩
      · rintro ⟨⟨href2, heq | hmem, hres⟩, hint, hnv⟩
        · exact absurd heq (by simp)
        · exact ⟨⟨href2, hmem, hres⟩, hint, hnv⟩
    | baseTag s =>
      simp only [extract_internal_links] at h
      rw [ih S h]
      simp only [List.mem_cons]
      constructor
      · rintro ⟨⟨href2, hmem, hres⟩, hint, hnv⟩
        exact ⟨⟨href2, Or.inr hmem, hres⟩, hint, hnv⟩
      · rintro ⟨⟨href2, heq | hmem, hres⟩, hint, hnv⟩
        · exact absurd heq (by simp)
        · exact ⟨⟨href2, hmem, hres⟩, hint, hnv⟩

theorem step_visited_mono {pl : List Char → Finset (List Char)}
    {s s' : CrawlState} {l : StepLabel} (h : Step pl s l s') :
    s.visited ⊆ s'.visited := by
  cases h with
  | skip u hq hv => exact Finset.Subset.refl _
  | process u hq hv => exact Finset.subset_insert _ _

theorem step_process_not_visited {pl : List Char → Finset (List Char)}
    {s s' : CrawlState} {u : List Char} (h : Step pl s (StepLabel.process u) s') :
    u ∉ s.visited ∧ u ∈ s'.visited := by
  cases h with
  | process u hq hv => exact ⟨hv, Finset.mem_insert_self _ _⟩

theorem run_visited_mono {pl : List Char → Finset (List Char)} :
    ∀ {s t s'}, Run pl s t s' → s.visited ⊆ s'.visited := by
  intro s t s' h
  induction h with
  | nil s => exact Finset.Subset.refl _
  | cons hstep hrun ih => exact (step_visited_mono hstep).trans ih

theorem run_no_process_of_visited {pl : List Char → Finset (List Char)} {u : List Char} :
    ∀ {s t s'}, Run pl s t s' → u ∈ s.visited → StepLabel.process u ∉ t := by
  intro s t s' h
  induction h with
  | nil s => intro _ hmem; exact absurd hmem (List.not_mem_nil _)
  | cons hstep hrun ih =>
    intro hu hmem
    rcases List.mem_cons.mp hmem with heq | hmem2
    · rw [← heq] at hstep
      exact (step_process_not_visited hstep).1 hu
    · exact ih (step_visited_mono hstep hu) hmem2

theorem step_disjoint {pl : List Char → Finset (List Char)} {s s' : CrawlState}
    {l : StepLabel} (hd : Disjoint s.queue s.visited) (h : Step pl s l s') :
    Disjoint s'.queue s'.visited := by
  cases h with
  | skip u hq hv =>
    exact Finset.disjoint_of_subset_left (Finset.erase_subset _ _) hd
  | process u hq hv =>
    rw [Finset.disjoint_left]
    intro x hx
    rcases Finset.mem_union.mp hx with h1 | h2
    · intro hxv
      rcases Finset.mem_insert.mp hxv with rfl | hxv2
      · exact (Finset.ne_of_mem_erase h1) rfl
      · exact (Finset.disjoint_left.mp hd (Finset.mem_of_mem_erase h1)) hxv2
    · exact (Finset.mem_filter.mp h2).2

theorem run_disjoint {pl : List Char → Finset (List Char)} :
    ∀ {s t s'}, Run pl s t s' →
      Disjoint s.queue s.visited → Disjoint s'.queue s'.visited := by
  intro s t s' h
  induction h with
  | nil s => exact id
  | cons hstep hrun ih => intro hd; exact ih (step_disjoint hd hstep)

theorem step_inv {pl : List Char → Finset (List Char)} {P : Finset (List Char)}
    {s s' : CrawlState} {l : StepLabel}
    (hcl : ∀ u ∈ P, pl u ⊆ P) (hinv : LoopInv P s) (h : Step pl s l s') :
    LoopInv P s' ∧ s'.visited.card = s.visited.card + 1 := by
  obtain ⟨hq, hv, hd⟩ := hinv
  cases h with
  | skip u huq huv => exact absurd huv (Finset.disjoint_left.mp hd huq)
  | process u huq huv =>
    refine ⟨⟨?_, ?_, step_disjoint hd (Step.process _ u huq huv)⟩, ?_⟩
    · intro x hx
      rcases Finset.mem_union.mp hx with h1 | h2
      · exact hq (Finset.mem_of_mem_erase h1)
      · exact hcl u (hq huq) (Finset.mem_filter.mp h2).1
    · intro x hx
      rcases Finset.mem_insert.mp hx with rfl | hx2
      · exact hq huq
      · exact hv hx2
    · exact Finset.card_insert_of_not_mem huv

theorem run_inv {pl : List Char → Finset (List Char)} {P : Finset (List Char)}
    (hcl : ∀ u ∈ P, pl u ⊆ P) :
    ∀ {s t s'}, Run pl s t s' → LoopInv P s →
      LoopInv P s' ∧ s'.visited.card = s.visited.card + t.length := by
  intro s t s' h
  induction h with
  | nil s => intro hi; exact ⟨hi, by simp⟩
  | cons hstep hrun ih =>
    intro hi
    obtain ⟨hi2, hc2⟩ := step_inv hcl hi hstep
    obtain ⟨hi3, hc3⟩ := ih hi2
    refine ⟨hi3, ?_⟩
    rw [hc3, hc2, List.length_cons]
    omega

theorem crawl_drain {pl : List Char → Finset (List Char)} {P : Finset (List Char)}
    (hcl : ∀ u ∈ P, pl u ⊆ P) :
    ∀ (n : Nat) (s : CrawlState), LoopInv P s → P.card - s.visited.card ≤ n →
      ∃ t s', Run pl s t s' ∧ s'.queue = ∅ ∧ t.length ≤ P.card - s.visited.card := by
  intro n
  induction n with
  | zero =>
    intro s hi hn
    rcases Finset.eq_empty_or_nonempty s.queue with he | hne
    · exact ⟨[], s, Run.nil s, he, by simp⟩
    · obtain ⟨u, hu⟩ := hne
      have huP : u ∈ P := hi.1 hu
      have hunv : u ∉ s.visited := Finset.disjoint_left.mp hi.2.2 hu
      have hlt : s.visited.card < P.card :=
        Finset.card_lt_card ((Finset.ssubset_iff_of_subset hi.2.1).mpr ⟨u, huP, hunv⟩)
      omega
  | succ n ih =>
    intro s hi hn
    rcases Finset.eq_empty_or_nonempty s.queue with he | hne
    · exact ⟨[], s, Run.nil s, he, by simp⟩
    · obtain ⟨u, hu⟩ := hne
      have huP : u ∈ P := hi.1 hu
      have hunv : u ∉ s.visited := Finset.disjoint_left.mp hi.2.2 hu
      have hlt : s.visited.card < P.card :=
        Finset.card_lt_card ((Finset.ssubset_iff_of_subset hi.2.1).mpr ⟨u, huP, hunv⟩)
      have hstep := @Step.process pl s u hu hunv
      obtain ⟨hi2, hc2⟩ := step_inv hcl hi hstep
      obtain ⟨t, s', hrun, hqe, hlen⟩ := ih _ hi2 (by rw [hc2]; omega)
      refine ⟨_ :: t, s', Run.cons hstep hrun, hqe, ?_⟩
      rw [List.length_cons]
      rw [hc2] at hlen
      omega

theorem step_progress {pl : List Char → Finset (List Char)} {s : CrawlState}
    (h : s.queue.Nonempty) : ∃ l s', Step pl s l s' := by
  obtain ⟨u, hu⟩ := h
  by_cases hv : u ∈ s.visited
  · exact ⟨_, _, Step.skip s u hu hv⟩
  · exact ⟨_, _, Step.process s u hu hv⟩

/-- C2: along any execution of the crawl loop, each URL is processed by
crawl_page at most once, however often it is rediscovered; and the iteration
that processes a URL fires only when the URL is not yet visited and has the
URL in the visited set from that transition on (the code inserts it before
crawl_page runs). -/
theorem crawl_processes_each_url_at_most_once
    (pl : List Char → Finset (List Char)) (u : List Char) :
    (∀ s t s', Run pl s t s' → t.count (StepLabel.process u) ≤ 1) ∧
    (∀ s s', Step pl s (StepLabel.process u) s' → u ∉ s.visited ∧ u ∈ s'.visited) := by
  constructor
  · intro s t s' h
    induction h with
    | nil s => simp
    | @cons s1 s2 s3 l t2 hstep hrun ih =>
      by_cases hl : l = StepLabel.process u
      · subst hl
        have h2 : StepLabel.process u ∉ t2 :=
          run_no_process_of_visited hrun (step_process_not_visited hstep).2
        rw [List.count_cons_self, List.count_eq_zero.mpr h2]
      · rw [List.count_cons_of_ne (Ne.symm hl)]
        exact ih
  · intro s s' h
    exact step_process_not_visited h

theorem crawl_processes_each_url_at_most_once_witness :
    ([StepLabel.process START_PAGE].count (StepLabel.process START_PAGE)) ≤ 1 :=
  (crawl_processes_each_url_at_most_once (fun _ => ∅) START_PAGE).1 initState
    [StepLabel.process START_PAGE]
    ⟨initState.queue.erase START_PAGE ∪
       ((fun _ => (∅ : Finset (List Char))) START_PAGE).filter
         (fun l => l ∉ insert START_PAGE initState.visited),
     insert START_PAGE initState.visited⟩
    (Run.cons (Step.process initState START_PAGE (by decide) (by decide)) (Run.nil _))

/-- C10: in every state the crawl loop can reach from its initial state
(queue = the start page, visited empty) — that is, at every evaluation of the
loop condition — the frontier and the visited set are disjoint: a popped URL
leaves the queue before it is added to visited, and discovered URLs join the
queue only when not visited. -/
theorem frontier_visited_disjoint (pl : List Char → Finset (List Char))
    (t : List StepLabel) (s : CrawlState) (h : Run pl initState t s) :
    Disjoint s.queue s.visited := by
  refine run_disjoint h ?_
  simp [initState]

theorem frontier_visited_disjoint_witness :
    Disjoint initState.queue initState.visited :=
  frontier_visited_disjoint (fun _ => ∅) [] initState (Run.nil _)

/-- C4: for a finite set P of internal pages containing the start page and
closed under the per-page link function, every execution of the crawl loop
from the initial state takes at most card P iterations, and some execution
reaches an empty frontier within that bound, so the loop terminates. -/
theorem crawl_terminates_within_page_count (pl : List Char → Finset (List Char))
    (P : Finset (List Char)) (hstart : START_PAGE ∈ P)
    (hcl : ∀ u ∈ P, pl u ⊆ P) :
    (∀ t s, Run pl initState t s → t.length ≤ P.card) ∧
    (∃ t s, Run pl initState t s ∧ s.queue = ∅ ∧ t.length ≤ P.card) := by
  have hinv0 : LoopInv P initState := by
    refine ⟨?_, ?_, ?_⟩
    · intro x hx
      have hx2 : x = START_PAGE := by simpa [initState] using hx
      subst hx2
      exact hstart
    · intro x hx
      simp [initState] at hx
    · simp [initState]
  constructor
  · intro t s h
    obtain ⟨hi, hc⟩ := run_inv hcl h hinv0
    have hcard : s.visited.card ≤ P.card := Finset.card_le_card hi.2.1
    simp only [initState, Finset.card_empty] at hc
    omega
  · obtain ⟨t, s, hrun, hq, hlen⟩ :=
      crawl_drain hcl P.card initState hinv0 (by simp [initState])
    refine ⟨t, s, hrun, hq, ?_⟩
    simp only [initState, Finset.card_empty] at hlen
    omega

theorem crawl_terminates_within_page_count_witness :
    ([] : List StepLabel).length ≤ ({START_PAGE} : Finset (List Char)).card :=
  (crawl_terminates_within_page_count (fun _ => ∅) {START_PAGE} (by simp)
      (fun u _ => Finset.empty_subset _)).1 [] initState (Run.nil _)

theorem crawl_page_some_spec (v : Finset (List Char)) (url : List Char)
    (f : FetchResult) (effs : List Effect) (links : Finset (List Char))
    (h : crawl_page v url f = some (effs, links)) :
    ∃ fn finalHtml, url_to_filename url = some fn ∧
      extract_internal_links url v (docToMarkup f.doc) = some links ∧
      rewrite_internal_links url (docToMarkup (materialize f.doc f.styles)) = some finalHtml ∧
      effs = Effect.goto url 30000 ::
               (if f.ok then [] else [Effect.waitMs 5000]) ++
               [Effect.waitMs 2000, Effect.captureStyles, Effect.getContent,
                Effect.closeContext,
                Effect.writeFile (pathJoin OUTPUT_DIR fn) finalHtml] := by
  rw [crawl_page] at h
  cases hfn : url_to_filename url with
  | none => rw [hfn] at h; exact absurd h (by simp)
  | some fn =>
    rw [hfn] at h
    cases hex : extract_internal_links url v (docToMarkup f.doc) with
    | none => rw [hex] at h; exact absurd h (by simp)
    | some nl =>
      rw [hex] at h
      cases hrw : rewrite_internal_links url (docToMarkup (materialize f.doc f.styles)) with
      | none => rw [hrw] at h; exact absurd h (by simp)
      | some fh =>
        rw [hrw] at h
        simp only [Option.some.injEq, Prod.mk.injEq] at h
        obtain ⟨heff, hlink⟩ := h
        subst heff
        subst hlink
        exact ⟨fn, fh, rfl, rfl, rfl, rfl⟩

/-- C7: a fetch failure (timeout or navigation error) is non-fatal in
crawl_page: whether crawl_page produces a result does not depend on the
fetch outcome, a failed fetch adds the fixed 5000 ms fallback wait, the
fixed 2000 ms wait occurs regardless of the fetch outcome, and a produced
result always includes writing the output file for the URL. -/
theorem crawl_page_fetch_failure_nonfatal (v : Finset (List Char))
    (url : List Char) (d : Doc) (st : List Char) :
    ((crawl_page v url ⟨true, d, st⟩).isSome = (crawl_page v url ⟨false, d, st⟩).isSome) ∧
    (∀ effs links, crawl_page v url ⟨false, d, st⟩ = some (effs, links) →
      Effect.waitMs 5000 ∈ effs ∧ Effect.waitMs 2000 ∈ effs ∧
      ∃ fn content, url_to_filename url = some fn ∧
        Effect.writeFile (pathJoin OUTPUT_DIR fn) content ∈ effs) ∧
    (∀ ok effs links, crawl_page v url ⟨ok, d, st⟩ = some (effs, links) →
      Effect.waitMs 2000 ∈ effs) := by
  refine ⟨?_, ?_, ?_⟩
  · cases hfn : url_to_filename url with
    | none => simp [crawl_page, hfn]
    | some fn =>
      cases hex : extract_internal_links url v (docToMarkup d) with
      | none => simp [crawl_page, hfn, hex]
      | some nl =>
        cases hrw : rewrite_internal_links url (docToMarkup (materialize d st)) with
        | none => simp [crawl_page, hfn, hex, hrw]
        | some fh => simp [crawl_page, hfn, hex, hrw]
  · intro effs links h
    obtain ⟨fn, fh, hfn, hex, hrw, heff⟩ := crawl_page_some_spec v url _ effs links h
    subst heff
    refine ⟨by simp, by simp, fn, fh, hfn, by simp⟩
  · intro ok effs links h
    obtain ⟨fn, fh, hfn, hex, hrw, heff⟩ := crawl_page_some_spec v url _ effs links h
    subst heff
    cases ok <;> simp

theorem crawl_page_fetch_failure_nonfatal_witness :
    Effect.waitMs 5000 ∈
        [Effect.goto START_PAGE 30000, Effect.waitMs 5000, Effect.waitMs 2000,
         Effect.captureStyles, Effect.getContent, Effect.closeContext,
         Effect.writeFile (pathJoin OUTPUT_DIR (lc "home.html")) []] ∧
      Effect.waitMs 2000 ∈
        [Effect.goto START_PAGE 30000, Effect.waitMs 5000, Effect.waitMs 2000,
         Effect.captureStyles, Effect.getContent, Effect.closeContext,
         Effect.writeFile (pathJoin OUTPUT_DIR (lc "home.html")) []] ∧
      ∃ fn content, url_to_filename START_PAGE = some fn ∧
        Effect.writeFile (pathJoin OUTPUT_DIR fn) content ∈
          [Effect.goto START_PAGE 30000, Effect.waitMs 5000, Effect.waitMs 2000,
           Effect.captureStyles, Effect.getContent, Effect.closeContext,
           Effect.writeFile (pathJoin OUTPUT_DIR (lc "home.html")) []] :=
  (crawl_page_fetch_failure_nonfatal ∅ START_PAGE ⟨none, []⟩ []).2.1
    [Effect.goto START_PAGE 30000, Effect.waitMs 5000, Effect.waitMs 2000,
     Effect.captureStyles, Effect.getContent, Effect.closeContext,
     Effect.writeFile (pathJoin OUTPUT_DIR (lc "home.html")) []] ∅ (by decide)

/-- C8: when the rendered document has no head section, the materialization
pass changes the document only by removing stylesheet links — the appending
of the captured-style block and the insertion of the base declaration are
both silently skipped — and a successful crawl_page on such a document still
writes the output file for the page. -/
theorem missing_head_skips_style_and_base (b : Markup) (st : List Char) :
    materialize ⟨none, b⟩ st = ⟨none, removeStylesheetLinks b⟩ ∧
    (∀ v url ok effs links,
      crawl_page v url ⟨ok, ⟨none, b⟩, st⟩ = some (effs, links) →
      ∃ fn content, url_to_filename url = some fn ∧
        Effect.writeFile (pathJoin OUTPUT_DIR fn) content ∈ effs) := by
  refine ⟨rfl, ?_⟩
  intro v url ok effs links h
  obtain ⟨fn, fh, hfn, hex, hrw, heff⟩ := crawl_page_some_spec v url _ effs links h
  subst heff
  refine ⟨fn, fh, hfn, ?_⟩
  cases ok <;> simp

theorem missing_head_skips_style_and_base_witness :
    ∃ fn content, url_to_filename START_PAGE = some fn ∧
      Effect.writeFile (pathJoin OUTPUT_DIR fn) content ∈
        [Effect.goto START_PAGE 30000, Effect.waitMs 2000,
         Effect.captureStyles, Effect.getContent, Effect.closeContext,
         Effect.writeFile (pathJoin OUTPUT_DIR (lc "home.html")) []] :=
  (missing_head_skips_style_and_base [] []).2 ∅ START_PAGE true
    [Effect.goto START_PAGE 30000, Effect.waitMs 2000,
     Effect.captureStyles, Effect.getContent, Effect.closeContext,
     Effect.writeFile (pathJoin OUTPUT_DIR (lc "home.html")) []] ∅ (by decide)

/-- C1 (amended): url_to_filename is a pure function of the URL, and on every
input whose URL parse succeeds it returns exactly the spec pipeline applied
to the parsed path: remove the site-root distinguishing segment, strip
leading and trailing slashes, replace remaining slashes with underscores,
default to the reserved token home, append .html.  The original claim's
totality clause fails: see the counterexample theorem. -/
theorem url_to_filename_matches_spec_pipeline (url : List Char) (r : ParseResult)
    (h : urlparse [] url = some r) :
    url_to_filename url = some (localFilenameOfPath r.path) := by
  rw [url_to_filename_eq_pipeline, h, Option.map_some']

theorem url_to_filename_matches_spec_pipeline_witness :
    url_to_filename (lc "https://sites.google.com/view/spc-student-it-club/about")
      = some (localFilenameOfPath (lc "/view/spc-student-it-club/about")) :=
  url_to_filename_matches_spec_pipeline
    (lc "https://sites.google.com/view/spc-student-it-club/about")
    ⟨lc "https", lc "sites.google.com", lc "/view/spc-student-it-club/about",
     [], [], []⟩ (by decide)

/-- C1 counterexample: url_to_filename is not total.  On the input string
consisting of two slashes and an opening bracket, urlparse reaches a netloc
with an unbalanced bracket, which CPython answers with
ValueError("Invalid IPv6 URL"); the model returns none (the raised
exception), refuting the claim that no string input yields an error. -/
theorem url_to_filename_not_total : url_to_filename (lc "//[") = none := by decide

/-- C9: the filename mapping is not injective on internal Canonical URLs: the
bare site root and the site root with path suffix /home are distinct internal
URLs that both map to home.html, so their output files collide. -/
theorem url_to_filename_not_injective :
    is_internal BASE_URL = true ∧
    is_internal (BASE_URL ++ lc "/home") = true ∧
    BASE_URL ≠ BASE_URL ++ lc "/home" ∧
    url_to_filename BASE_URL = some (lc "home.html") ∧
    url_to_filename (BASE_URL ++ lc "/home") = some (lc "home.html") := by decide

/-- C3 (amended): a successful rewrite relates input to output anchor by
anchor: an anchor whose resolved and normalized target is internal gets
url_to_filename of that target as its new value, which never equals the
absolute form; an anchor whose target is external keeps its original
attribute value byte for byte (it is left untouched, not replaced by the
normalized form — see the counterexample theorem); everything else is
unchanged. -/
theorem rewrite_internal_links_characterization (cu : List Char)
    (m out : Markup) (h : rewrite_internal_links cu m = some out) :
    List.Forall₂ (RewriteRel cu) m out :=
  rewrite_forall2 cu m out h

theorem rewrite_internal_links_characterization_witness :
    List.Forall₂ (RewriteRel START_PAGE)
      [Item.anchor (lc "/view/spc-student-it-club/about"), Item.text (lc "hi")]
      [Item.anchor (lc "about.html"), Item.text (lc "hi")] :=
  rewrite_internal_links_characterization START_PAGE
    [Item.anchor (lc "/view/spc-student-it-club/about"), Item.text (lc "hi")]
    [Item.anchor (lc "about.html"), Item.text (lc "hi")] (by decide)

/-- C3 counterexample: an external anchor whose href carries a query string
is left byte-identical to its original value, not to its pre-rewrite
normalized form: the normalized target drops the query string, yet the
output attribute still carries it. -/
theorem rewrite_external_keeps_raw_value :
    rewrite_internal_links START_PAGE [Item.anchor (lc "http://ext.example/a?q=1")]
      = some [Item.anchor (lc "http://ext.example/a?q=1")] ∧
    resolveNormalize START_PAGE (lc "http://ext.example/a?q=1")
      = some (lc "http://ext.example/a") ∧
    is_internal (lc "http://ext.example/a") = false ∧
    lc "http://ext.example/a?q=1" ≠ lc "http://ext.example/a" := by decide

/-- C5: a successful rewrite_internal_links never changes the set or order of
the non-anchor content: filtering the anchors out of the output gives
exactly the non-anchor content of the input. -/
theorem rewrite_preserves_non_anchor_content (cu : List Char)
    (m out : Markup) (h : rewrite_internal_links cu m = some out) :
    nonAnchorContent out = nonAnchorContent m := by
  have h2 := rewrite_forall2 cu m out h
  clear h
  induction h2 with
  | nil => rfl
  | @cons a b l1 l2 hab htail ih =>
    cases a with
    | anchor href =>
      obtain ⟨full, href2, hb, -, -⟩ := hab
      subst hb
      simp only [nonAnchorContent, List.filter_cons, isAnchor] at *
      simpa using ih
    | text s =>
      have hb : b = Item.text s := hab
      subst hb
      simp only [nonAnchorContent, List.filter_cons, isAnchor] at *
      simpa using ih
    | stylesheetLink =>
      have hb : b = Item.stylesheetLink := hab
      subst hb
      simp only [nonAnchorContent, List.filter_cons, isAnchor] at *
      simpa using ih
    | styleTag s =>
      have hb : b = Item.styleTag s := hab
      subst hb
      simp only [nonAnchorContent, List.filter_cons, isAnchor] at *
      simpa using ih
    | baseTag s =>
      have hb : b = Item.baseTag s := hab
      subst hb
      simp only [nonAnchorContent, List.filter_cons, isAnchor] at *
      simpa using ih

theorem rewrite_preserves_non_anchor_content_witness :
    nonAnchorContent [Item.anchor (lc "about.html"), Item.text (lc "hi")]
      = nonAnchorContent
          [Item.anchor (lc "/view/spc-student-it-club/about"), Item.text (lc "hi")] :=
  rewrite_preserves_non_anchor_content START_PAGE
    [Item.anchor (lc "/view/spc-student-it-club/about"), Item.text (lc "hi")]
    [Item.anchor (lc "about.html"), Item.text (lc "hi")] (by decide)

theorem extract_internal_links_characterization_witness :
    lc "https://sites.google.com/view/spc-student-it-club/about" ∈
      ({lc "https://sites.google.com/view/spc-student-it-club/about"} :
        Finset (List Char)) :=
  (extract_internal_links_characterization START_PAGE ∅
      [Item.anchor (lc "/view/spc-student-it-club/about"),
       Item.anchor (lc "http://ext.example/"), Item.text (lc "x")]
      {lc "https://sites.google.com/view/spc-student-it-club/about"} (by decide)
      (lc "https://sites.google.com/view/spc-student-it-club/about")).mpr
    ⟨⟨lc "/view/spc-student-it-club/about", by decide, by decide⟩, by decide, by decide⟩

end Crawler
